import Mathlib

/-!
Verification of the lazy columnar batch layer of the coprocessor codec
(`src/coprocessor/codec/batch/lazy_column.rs` and
`src/coprocessor/codec/batch/rows.rs`).

A `LazyBatchColumn` is either a `Raw` sequence of encoded datum byte strings
(cells) or a `Decoded` typed vector.  A `BatchRows` composes several such
columns with an equal-row-count invariant, supports row pushes, on-demand
per-column decoding, and index-predicate row filtering.

External collaborators (the datum decode primitive, the field-type to
evaluation-type conversion, and the typed vector `VectorValue`) are outside
the two source files; they are treated as opaque parameters, exactly as the
specification prescribes ("treated as a black box").
-/

/-- Opaque time zone context, passed through unmodified to the decode
primitive. -/
abbrev Tz := Int

/-- Evaluation type tag produced by the field-type conversion.  Its identity
is irrelevant to the verified properties, so it is represented by a code. -/
abbrev EvalType := Nat

/-- Schema metadata of one column (`tipb::schema::ColumnInfo`), restricted to
the fields read by `decode`: type tag `tp()`, the `NOT NULL` bit of `flag()`,
the optional default value bytes (`has_default_val` / `get_default_val`), and
`get_column_id` (used only in error messages). -/
structure ColumnInfo where
  tp : Nat
  flag_not_null : Bool
  default_val : Option (List Nat)
  column_id : Int
deriving DecidableEq

/-- `column_info.has_default_val()`. -/
def ColumnInfo.has_default_val (ci : ColumnInfo) : Bool :=
  ci.default_val.isSome

/-- `column_info.get_default_val()` (protobuf getter: field bytes, or the
empty byte string when unset; `decode` only reads it under
`has_default_val`). -/
def ColumnInfo.get_default_val (ci : ColumnInfo) : List Nat :=
  ci.default_val.getD []

/-- Recoverable codec error.  Both failure sites of `decode`
(`Error::Other(box_err!(e))` for the eval-type conversion and
`box_err!("Column (id = ...) ...")` for the NOT-NULL violation) construct the
generic `Other` variant, carrying a message. -/
inductive Error where
  | other (msg : String)
deriving DecidableEq

/-- The message of the NOT-NULL-violation error produced at
lazy_column.rs:164-167: it names the offending column by id. -/
def notNullMsg (id : Int) : String :=
  "Column (id = " ++ toString id ++ ") has flag NOT NULL, but no value is given"

/-- Modelled from the spec: `datum::DATUM_DATA_NULL`, the NULL sentinel datum
byte string fed to the decode primitive when an empty cell resolves to NULL
(the datum module is not part of the excerpt; only the constant's existence
matters here). -/
def DATUM_DATA_NULL : List Nat := [0]

/-- Modelled from the spec: the external collaborators of the column layer,
as one environment.  `tryFromTp` is `EvalType::try_from(tp)` (an opaque
conversion that may fail with a description); `decodeDatum` is the external
decode primitive behind `VectorValue::push_datum` (given datum bytes, a time
zone and the schema, produce one typed value or a codec error). -/
structure DecodeEnv (Val : Type) where
  tryFromTp : Nat → Except String EvalType
  decodeDatum : List Nat → Tz → ColumnInfo → Except Error Val

/-- Modelled from the spec: the opaque per-type columnar vector
(`VectorValue`): an evaluation type, a capacity, and the decoded values in
row order. -/
structure VectorValue (Val : Type) where
  etype : EvalType
  cap : Nat
  data : List Val
deriving DecidableEq

/-- `VectorValue::with_capacity(capacity, eval_type)`. -/
def VectorValue.withCapacity (cap : Nat) (et : EvalType) {Val : Type} :
    VectorValue Val :=
  ⟨et, cap, []⟩

/-- `VectorValue::len`. -/
def VectorValue.len {Val : Type} (v : VectorValue Val) : Nat :=
  v.data.length

/-- Modelled from the spec: `VectorValue::push_datum(bytes, tz, schema)`
appends one decoded value produced by the external decode primitive, or
propagates its error unchanged.  (Internal capacity growth of the vector is
an allocation detail that no verified property observes; `cap` is kept.) -/
def VectorValue.push_datum {Val : Type} (env : DecodeEnv Val)
    (v : VectorValue Val) (bytes : List Nat) (tz : Tz) (ci : ColumnInfo) :
    Except Error (VectorValue Val) :=
  match env.decodeDatum bytes tz ci with
  | .error e => .error e
  | .ok x => .ok { v with data := v.data ++ [x] }

/-- Result of an operation that can hit a contract violation: Rust panics are
modelled as the `fatal` outcome, carrying the panic/assertion message. -/
inductive PanicOr (α : Type) where
  | ok (a : α)
  | fatal (msg : String)
deriving DecidableEq

/-- `LazyBatchColumn`: a tagged union of a raw cell sequence (each cell the
byte content of one `SmallVec<[u8; 9]>`; the 9-byte inline threshold is a
memory-layout detail with no observable effect on cell content) and a
decoded typed vector.  `cap` is the raw `Vec`'s capacity. -/
inductive LazyBatchColumn (Val : Type) where
  | Raw (cap : Nat) (cells : List (List Nat))
  | Decoded (v : VectorValue Val)
deriving DecidableEq

namespace LazyBatchColumn

variable {Val : Type}

/-- `LazyBatchColumn::raw_with_capacity(capacity)`. -/
def raw_with_capacity (cap : Nat) : LazyBatchColumn Val :=
  .Raw cap []

/-- `LazyBatchColumn::is_raw`. -/
def is_raw : LazyBatchColumn Val → Bool
  | .Raw _ _ => true
  | .Decoded _ => false

/-- `LazyBatchColumn::is_decoded`. -/
def is_decoded : LazyBatchColumn Val → Bool
  | .Raw _ _ => false
  | .Decoded _ => true

/-- `LazyBatchColumn::len`. -/
def len : LazyBatchColumn Val → Nat
  | .Raw _ cells => cells.length
  | .Decoded v => v.len

/-- `LazyBatchColumn::capacity`. -/
def capacity : LazyBatchColumn Val → Nat
  | .Raw cap _ => cap
  | .Decoded v => v.cap

/-- `LazyBatchColumn::get_decoded` (panics on a raw column). -/
def get_decoded : LazyBatchColumn Val → PanicOr (VectorValue Val)
  | .Raw _ _ => .fatal "LazyBatchColumn is not decoded"
  | .Decoded v => .ok v

/-- `LazyBatchColumn::push_raw(raw_datum)`: append one raw cell; panic when
the column is already decoded.  (`Vec::push` keeps the capacity while there
is room and otherwise grows it by an amortized policy internal to `Vec`; the
model keeps the guaranteed lower bound `capacity >= len`.) -/
def push_raw (col : LazyBatchColumn Val) (raw_datum : List Nat) :
    PanicOr (LazyBatchColumn Val) :=
  match col with
  | .Raw cap cells => .ok (.Raw (max cap (cells.length + 1)) (cells ++ [raw_datum]))
  | .Decoded _ => .fatal "LazyBatchColumn is already decoded"

/-- `LazyBatchColumn::clone`: a deep copy.  Copying each raw cell's bytes
(or delegating to the vector's clone) reproduces the same content, so in the
value model the clone equals the original. -/
def clone : LazyBatchColumn Val → LazyBatchColumn Val
  | .Raw cap cells => .Raw cap cells
  | .Decoded v => .Decoded v

end LazyBatchColumn

/-- The empty-cell resolution in the body of `decode`
(lazy_column.rs:158-171): a non-empty cell's own bytes are used; an empty
cell resolves to the schema's default value bytes when a default is present,
else to the NULL sentinel bytes when the column does not carry the NOT NULL
flag, else to the NOT-NULL-violation error naming the column's id. -/
def resolveCell (ci : ColumnInfo) (c : List Nat) : Except Error (List Nat) :=
  if c.isEmpty then
    if ci.has_default_val then .ok ci.get_default_val
    else if !ci.flag_not_null then .ok DATUM_DATA_NULL
    else .error (Error.other (notNullMsg ci.column_id))
  else .ok c

/-- The decode loop of `decode` (lazy_column.rs:157-173): for each raw cell
in row order, resolve the bytes to feed, push them through the decode
primitive into the accumulating vector, and stop at the first error. -/
def decodeCells {Val : Type} (env : DecodeEnv Val) (tz : Tz)
    (ci : ColumnInfo) : List (List Nat) → VectorValue Val →
    Except Error (VectorValue Val)
  | [], acc => .ok acc
  | c :: rest, acc =>
    match resolveCell ci c with
    | .error e => .error e
    | .ok bytes =>
      match acc.push_datum env bytes tz ci with
      | .error e => .error e
      | .ok acc2 => decodeCells env tz ci rest acc2

/-- `LazyBatchColumn::decode(time_zone, column_info)`
(lazy_column.rs:146-178).  The pair is the column after the call together
with the returned `Result`: an already-decoded column returns `Ok` at once;
otherwise the eval type is derived from the schema's type tag, all cells are
decoded into a fresh vector, and only on full success is the column replaced
by the decoded vector. -/
def LazyBatchColumn.decode {Val : Type} (env : DecodeEnv Val)
    (col : LazyBatchColumn Val) (tz : Tz) (ci : ColumnInfo) :
    LazyBatchColumn Val × Except Error Unit :=
  match col with
  | .Decoded v => (.Decoded v, .ok ())
  | .Raw cap cells =>
    match env.tryFromTp ci.tp with
    | .error e => (.Raw cap cells, .error (Error.other e))
    | .ok et =>
      match decodeCells env tz ci cells (VectorValue.withCapacity cap et) with
      | .error e => (.Raw cap cells, .error e)
      | .ok dc => (.Decoded dc, .ok ())

/-- `Vec::retain` applied with the index-counter closure of
`LazyBatchColumn::retain_by_index` (lazy_column.rs:131-138): elements are
visited in order, the predicate is applied to the running index (the row's
position before any removal in this call) and the index is incremented after
every call, kept elements preserve their relative order.  The second
component records the sequence of arguments the predicate was invoked with,
in invocation order. -/
def vecRetainIdx {α : Type} (p : Nat → Bool) : Nat → List α → List α × List Nat
  | _, [] => ([], [])
  | idx, x :: xs =>
    let r := p idx
    let rest := vecRetainIdx p (idx + 1) xs
    (if r then x :: rest.1 else rest.1, idx :: rest.2)

/-- Modelled from the spec: `VectorValue::retain_by_index(p)`, the typed
vector's own retain — same contract as the raw-side retain (predicate over
the 0-based pre-removal row index, called in increasing order once per
current row, relative order preserved). -/
def VectorValue.retain_by_index {Val : Type} (v : VectorValue Val)
    (p : Nat → Bool) : VectorValue Val :=
  { v with data := (vecRetainIdx p 0 v.data).1 }

/-- `LazyBatchColumn::retain_by_index(f)` (lazy_column.rs:126-143), for a
predicate that is a pure function of the row index. -/
def LazyBatchColumn.retain_by_index {Val : Type} (p : Nat → Bool) :
    LazyBatchColumn Val → LazyBatchColumn Val
  | .Raw cap cells => .Raw cap (vecRetainIdx p 0 cells).1
  | .Decoded v => .Decoded (v.retain_by_index p)

/-- The sequence of arguments the predicate is invoked with when
`LazyBatchColumn::retain_by_index` runs on this column. -/
def LazyBatchColumn.retainCalls {Val : Type} (p : Nat → Bool) :
    LazyBatchColumn Val → List Nat
  | .Raw _ cells => (vecRetainIdx p 0 cells).2
  | .Decoded v => (vecRetainIdx p 0 v.data).2

/-- Specification-side filter: keep the elements whose 0-based position
satisfies the predicate, in order, starting the position count at `i`.  Used
to state that retain keeps exactly the rows at indices satisfying `p`,
identically in every column. -/
def sieveFrom {α : Type} (p : Nat → Bool) : Nat → List α → List α
  | _, [] => []
  | i, x :: xs => if p i then x :: sieveFrom p (i + 1) xs else sieveFrom p (i + 1) xs

/-- Specification-side filter from position 0. -/
def sieve {α : Type} (p : Nat → Bool) (xs : List α) : List α :=
  sieveFrom p 0 xs

/-- Specification-side retain on a column: keep the rows at indices
satisfying the predicate. -/
def LazyBatchColumn.sieveCol {Val : Type} (p : Nat → Bool) :
    LazyBatchColumn Val → LazyBatchColumn Val
  | .Raw cap cells => .Raw cap (sieve p cells)
  | .Decoded v => .Decoded { v with data := sieve p v.data }

/-- `BatchRows<E>` (rows.rs:23-33): an ordered sequence of lazy columns plus
the optional latched error. -/
structure BatchRows (Val E : Type) where
  columns : List (LazyBatchColumn Val)
  some_error : Option E
deriving DecidableEq

namespace BatchRows

variable {Val E : Type}

/-- `BatchRows::raw(columns_count, rows_capacity)` (rows.rs:48-58). -/
def raw (columns_count rows_capacity : Nat) : BatchRows Val E :=
  { columns := List.replicate columns_count
      (LazyBatchColumn.raw_with_capacity rows_capacity),
    some_error := none }

/-- `BatchRows::columns_len` (rows.rs:111-113). -/
def columns_len (b : BatchRows Val E) : Nat :=
  b.columns.length

/-- `BatchRows::rows_len` (rows.rs:117-122): 0 when there are no columns,
else the first column's length. -/
def rows_len (b : BatchRows Val E) : Nat :=
  match b.columns with
  | [] => 0
  | c :: _ => c.len

/-- `BatchRows::rows_capacity` (rows.rs:126-131): 0 when there are no
columns, else the first column's capacity. -/
def rows_capacity (b : BatchRows Val E) : Nat :=
  match b.columns with
  | [] => 0
  | c :: _ => c.capacity

/-- `BatchRows::is_column_decoded(i)` (rows.rs:103-105); the `Vec` index
panics when out of bounds. -/
def is_column_decoded (b : BatchRows Val E) (i : Nat) : PanicOr Bool :=
  match b.columns[i]? with
  | some c => .ok c.is_decoded
  | none => .fatal "index out of bounds"

/-- `BatchRows::clone` (rows.rs:35-43): deep copies of every column and of
the error slot. -/
def clone (b : BatchRows Val E) : BatchRows Val E :=
  { columns := b.columns.map LazyBatchColumn.clone,
    some_error := b.some_error }

/-- The loop of `push_raw_row` (rows.rs:76-80): each datum is pushed into
the column of matching index after the `assert!(lazy_col.is_raw())`
check. -/
def pushRowLoop : List (LazyBatchColumn Val) → List (List Nat) →
    PanicOr (List (LazyBatchColumn Val))
  | [], [] => .ok []
  | c :: cs, d :: ds =>
    if c.is_raw then
      match c.push_raw d with
      | .fatal m => .fatal m
      | .ok c2 =>
        match pushRowLoop cs ds with
        | .fatal m => .fatal m
        | .ok cs2 => .ok (c2 :: cs2)
    else .fatal "assertion failed: lazy_col.is_raw()"
  | _, _ => .fatal "length mismatch"

/-- `BatchRows::push_raw_row(raw_row)` (rows.rs:69-81): asserts the arity
matches the number of columns, then pushes each raw datum into its
column. -/
def push_raw_row (b : BatchRows Val E) (raw_row : List (List Nat)) :
    PanicOr (BatchRows Val E) :=
  if b.columns_len = raw_row.length then
    match pushRowLoop b.columns raw_row with
    | .fatal m => .fatal m
    | .ok cols => .ok { b with columns := cols }
  else .fatal "assertion failed: columns_len == raw_row.len()"

/-- `BatchRows::ensure_column_decoded(i, tz, ci)` (rows.rs:88-99): after the
defensive `assert_eq!(col.len(), rows_len)`, the column is decoded in place;
a decode error propagates (the column stays as `decode` left it, i.e.
unchanged) and on success the decoded vector is returned. -/
def ensure_column_decoded (env : DecodeEnv Val) (b : BatchRows Val E)
    (i : Nat) (tz : Tz) (ci : ColumnInfo) :
    PanicOr (BatchRows Val E × Except Error (VectorValue Val)) :=
  match b.columns[i]? with
  | none => .fatal "index out of bounds"
  | some col =>
    if col.len = b.rows_len then
      match col.decode env tz ci with
      | (col2, .error e) => .ok ({ b with columns := b.columns.set i col2 }, .error e)
      | (col2, .ok ()) =>
        match col2.get_decoded with
        | .fatal m => .fatal m
        | .ok v => .ok ({ b with columns := b.columns.set i col2 }, .ok v)
    else .fatal "assertion failed: col.len() == number_of_rows"

/-- The loop of `retain_by_index` (rows.rs:149-161): each column is checked
against the pre-retain row count, retained, and checked against the running
post-retain row count (`new_rows`); `assert_eq!` failures are fatal.
(The source sets `new_rows` only once and asserts equality afterwards;
re-recording the same value is equivalent.) -/
def retainColsLoop (p : Nat → Bool) (cur : Nat) :
    Option Nat → List (LazyBatchColumn Val) →
    PanicOr (List (LazyBatchColumn Val))
  | _, [] => .ok []
  | newRows, c :: cs =>
    if c.len = cur then
      let c2 := c.retain_by_index p
      let consistent : Bool :=
        match newRows with
        | none => true
        | some r => c2.len = r
      if consistent then
        match retainColsLoop p cur (some c2.len) cs with
        | .fatal m => .fatal m
        | .ok cs2 => .ok (c2 :: cs2)
      else .fatal "assertion failed: col.len() == rows"
    else .fatal "assertion failed: col.len() == current_rows_len"

/-- `BatchRows::retain_by_index(f)` (rows.rs:137-162) for a predicate that
is a pure function of the row index: no-op when there are no rows, else
every column is retained by the same predicate with the defensive length
checks of the source. -/
def retain_by_index (p : Nat → Bool) (b : BatchRows Val E) :
    PanicOr (BatchRows Val E) :=
  if b.rows_len = 0 then .ok b
  else
    match retainColsLoop p b.rows_len none b.columns with
    | .fatal m => .fatal m
    | .ok cols => .ok { b with columns := cols }

end BatchRows

/-- Sequential raw pushes: fold `push_raw` over a list of cells (the usage
pattern of the round-trip property: push a sequence of cells, then
decode). -/
def LazyBatchColumn.pushAll {Val : Type} :
    LazyBatchColumn Val → List (List Nat) → PanicOr (LazyBatchColumn Val)
  | col, [] => .ok col
  | col, d :: ds =>
    match col.push_raw d with
    | .fatal m => .fatal m
    | .ok col2 => LazyBatchColumn.pushAll col2 ds

/-- Specification-side cell-by-cell decode: apply the external decode
primitive to each cell's bytes in order, stopping at the first error.  Used
to state the round-trip property. -/
def decodeAll {Val : Type} (env : DecodeEnv Val) (tz : Tz) (ci : ColumnInfo) :
    List (List Nat) → Except Error (List Val)
  | [] => .ok []
  | c :: cs =>
    match env.decodeDatum c tz ci with
    | .error e => .error e
    | .ok x =>
      match decodeAll env tz ci cs with
      | .error e => .error e
      | .ok xs => .ok (x :: xs)

/-- The batches reachable from `BatchRows::raw` by any sequence of
non-panicking `push_raw_row`, `ensure_column_decoded` (whether the decode
succeeded or returned an error), `retain_by_index` with a predicate that is
a pure function of the row index, and `clone`. -/
inductive Reachable {Val E : Type} (env : DecodeEnv Val) :
    BatchRows Val E → Prop where
  | init (columns_count rows_capacity : Nat) :
      Reachable env (BatchRows.raw columns_count rows_capacity)
  | push {b b2 : BatchRows Val E} (row : List (List Nat)) :
      Reachable env b → b.push_raw_row row = .ok b2 → Reachable env b2
  | ensure {b b2 : BatchRows Val E} (i : Nat) (tz : Tz) (ci : ColumnInfo)
      (r : Except Error (VectorValue Val)) :
      Reachable env b → b.ensure_column_decoded env i tz ci = .ok (b2, r) →
      Reachable env b2
  | retain {b b2 : BatchRows Val E} (p : Nat → Bool) :
      Reachable env b → b.retain_by_index p = .ok b2 → Reachable env b2
  | cloned {b : BatchRows Val E} : Reachable env b → Reachable env b.clone

/-- A small concrete environment used to instantiate the verified properties
on executable inputs: type tag 1 converts to eval type 1 and every other tag
is rejected; the decode primitive rejects the byte string `[9]` and
otherwise decodes a cell to its byte length. -/
def sampleEnv : DecodeEnv Nat :=
  { tryFromTp := fun tp => if tp = 1 then .ok 1 else .error "unsupported type",
    decodeDatum := fun bytes _ _ =>
      if bytes = [9] then .error (.other "cannot decode datum")
      else .ok bytes.length }

/-- A concrete two-column batch used to instantiate the filter-consistency
property. -/
def sampleBatch : BatchRows Nat Unit :=
  { columns := [.Raw 4 [[1], [2]], .Raw 4 [[3], []]], some_error := none }

/-- A concrete predicate over row indices (keeps row 0 only). -/
def samplePred (i : Nat) : Bool :=
  i == 0

/-- The concrete batch obtained from `BatchRows::raw 2 3` by pushing one raw
row; used to instantiate the equal-length invariant. -/
def samplePushed : BatchRows Nat Unit :=
  { columns := [.Raw 3 [[1]], .Raw 3 [[]]], some_error := none }

/-! ## Helper lemmas -/

theorem vecRetainIdx_fst {α : Type} (p : Nat → Bool) :
    ∀ (i : Nat) (xs : List α), (vecRetainIdx p i xs).1 = sieveFrom p i xs := by
  intro i xs
  induction xs generalizing i with
  | nil => rfl
  | cons x xs ih => simp [vecRetainIdx, sieveFrom, ih]

theorem vecRetainIdx_snd {α : Type} (p : Nat → Bool) :
    ∀ (i : Nat) (xs : List α), (vecRetainIdx p i xs).2 = List.range' i xs.length := by
  intro i xs
  induction xs generalizing i with
  | nil => rfl
  | cons x xs ih => simp [vecRetainIdx, List.range'_succ, ih]

theorem sieveFrom_length {α : Type} (p : Nat → Bool) :
    ∀ (i : Nat) (xs : List α),
      (sieveFrom p i xs).length = ((List.range' i xs.length).filter p).length := by
  intro i xs
  induction xs generalizing i with
  | nil => rfl
  | cons x xs ih =>
    cases h : p i with
    | true => simp [sieveFrom, List.range'_succ, List.filter_cons, h, ih]
    | false => simp [sieveFrom, List.range'_succ, List.filter_cons, h, ih]

theorem lazyRetain_eq_sieve {Val : Type} (p : Nat → Bool) (c : LazyBatchColumn Val) :
    LazyBatchColumn.retain_by_index p c = LazyBatchColumn.sieveCol p c := by
  cases c with
  | Raw cap cells =>
    simp [LazyBatchColumn.retain_by_index, LazyBatchColumn.sieveCol, sieve, vecRetainIdx_fst]
  | Decoded v =>
    simp [LazyBatchColumn.retain_by_index, LazyBatchColumn.sieveCol,
      VectorValue.retain_by_index, sieve, vecRetainIdx_fst]

theorem lazyRetain_len {Val : Type} (p : Nat → Bool) (c : LazyBatchColumn Val) :
    (LazyBatchColumn.retain_by_index p c).len = ((List.range c.len).filter p).length := by
  cases c with
  | Raw cap cells =>
    simp [LazyBatchColumn.retain_by_index, LazyBatchColumn.len, vecRetainIdx_fst,
      sieveFrom_length, List.range_eq_range']
  | Decoded v =>
    simp [LazyBatchColumn.retain_by_index, LazyBatchColumn.len, VectorValue.len,
      VectorValue.retain_by_index, vecRetainIdx_fst, sieveFrom_length, List.range_eq_range']

theorem retainCalls_range {Val : Type} (p : Nat → Bool) (c : LazyBatchColumn Val) :
    LazyBatchColumn.retainCalls p c = List.range c.len := by
  cases c with
  | Raw cap cells =>
    simp [LazyBatchColumn.retainCalls, LazyBatchColumn.len, vecRetainIdx_snd,
      List.range_eq_range']
  | Decoded v =>
    simp [LazyBatchColumn.retainCalls, LazyBatchColumn.len, VectorValue.len,
      vecRetainIdx_snd, List.range_eq_range']

theorem lazyRetain_of_len_zero {Val : Type} (p : Nat → Bool)
    (c : LazyBatchColumn Val) (h : c.len = 0) :
    LazyBatchColumn.retain_by_index p c = c := by
  cases c with
  | Raw cap cells =>
    cases cells with
    | nil => rfl
    | cons a as => simp [LazyBatchColumn.len] at h
  | Decoded v =>
    obtain ⟨et, cap, data⟩ := v
    cases data with
    | nil => rfl
    | cons a as => simp [LazyBatchColumn.len, VectorValue.len] at h

theorem push_datum_ok {Val : Type} (env : DecodeEnv Val) (v : VectorValue Val)
    (bytes : List Nat) (tz : Tz) (ci : ColumnInfo) (w : VectorValue Val)
    (h : v.push_datum env bytes tz ci = .ok w) :
    w.etype = v.etype ∧ w.cap = v.cap ∧ w.data.length = v.data.length + 1 := by
  unfold VectorValue.push_datum at h
  cases hd : env.decodeDatum bytes tz ci with
  | error e => rw [hd] at h; exact absurd h (by simp)
  | ok x =>
    rw [hd] at h
    simp only [Except.ok.injEq] at h
    subst h
    simp

theorem decodeCells_ok {Val : Type} (env : DecodeEnv Val) (tz : Tz) (ci : ColumnInfo) :
    ∀ (cells : List (List Nat)) (acc res : VectorValue Val),
      decodeCells env tz ci cells acc = .ok res →
      res.etype = acc.etype ∧ res.cap = acc.cap ∧
        res.data.length = acc.data.length + cells.length := by
  intro cells
  induction cells with
  | nil =>
    intro acc res h
    simp only [decodeCells, Except.ok.injEq] at h
    subst h
    simp
  | cons c rest ih =>
    intro acc res h
    simp only [decodeCells] at h
    cases hr : resolveCell ci c with
    | error e => rw [hr] at h; exact absurd h (by simp)
    | ok bytes =>
      rw [hr] at h
      simp only at h
      cases hp : acc.push_datum env bytes tz ci with
      | error e => rw [hp] at h; exact absurd h (by simp)
      | ok acc2 =>
        rw [hp] at h
        obtain ⟨h1, h2, h3⟩ := ih acc2 res h
        obtain ⟨g1, g2, g3⟩ := push_datum_ok env acc bytes tz ci acc2 hp
        refine ⟨h1.trans g1, h2.trans g2, ?_⟩
        rw [h3, g3]
        simp only [List.length_cons]
        omega

theorem decode_fst_len {Val : Type} (env : DecodeEnv Val)
    (col : LazyBatchColumn Val) (tz : Tz) (ci : ColumnInfo) :
    ((col.decode env tz ci).1).len = col.len := by
  cases col with
  | Decoded v => rfl
  | Raw cap cells =>
    simp only [LazyBatchColumn.decode]
    cases ht : env.tryFromTp ci.tp with
    | error e => simp
    | ok et =>
      cases hd : decodeCells env tz ci cells (VectorValue.withCapacity cap et) with
      | error e => simp [hd]
      | ok dc =>
        have := (decodeCells_ok env tz ci cells _ dc hd).2.2
        simp only [VectorValue.withCapacity, List.length_nil, Nat.zero_add] at this
        simp [hd, LazyBatchColumn.len, VectorValue.len, this]

theorem resolveCell_nonempty (ci : ColumnInfo) (c : List Nat) (h : c ≠ []) :
    resolveCell ci c = .ok c := by
  simp [resolveCell, h]

theorem decodeCells_eq_decodeAll {Val : Type} (env : DecodeEnv Val) (tz : Tz)
    (ci : ColumnInfo) :
    ∀ (cells : List (List Nat)), (∀ c ∈ cells, c ≠ []) →
    ∀ (acc : VectorValue Val),
      decodeCells env tz ci cells acc =
        match decodeAll env tz ci cells with
        | .error e => .error e
        | .ok vs => .ok { acc with data := acc.data ++ vs } := by
  intro cells
  induction cells with
  | nil =>
    intro _ acc
    simp [decodeCells, decodeAll]
  | cons c rest ih =>
    intro hne acc
    have hc : c ≠ [] := hne c (List.mem_cons_self c rest)
    simp only [decodeCells, decodeAll, resolveCell_nonempty ci c hc]
    simp only [VectorValue.push_datum]
    cases hd : env.decodeDatum c tz ci with
    | error e => simp
    | ok x =>
      have ih2 := ih (fun a ha => hne a (List.mem_cons_of_mem c ha))
      simp only [ih2]
      cases hm : decodeAll env tz ci rest with
      | error e => simp
      | ok ws => simp

theorem pushAll_raw {Val : Type} :
    ∀ (ds : List (List Nat)) (cap : Nat) (cells : List (List Nat)),
      ∃ cap2, LazyBatchColumn.pushAll (LazyBatchColumn.Raw cap cells : LazyBatchColumn Val) ds
        = .ok (.Raw cap2 (cells ++ ds)) := by
  intro ds
  induction ds with
  | nil =>
    intro cap cells
    exact ⟨cap, by simp [LazyBatchColumn.pushAll]⟩
  | cons d ds ih =>
    intro cap cells
    obtain ⟨cap2, h⟩ := ih (max cap (cells.length + 1)) (cells ++ [d])
    refine ⟨cap2, ?_⟩
    simp only [LazyBatchColumn.pushAll, LazyBatchColumn.push_raw]
    rw [h]
    simp

theorem push_raw_ok_len {Val : Type} (c : LazyBatchColumn Val) (d : List Nat)
    (c2 : LazyBatchColumn Val) (h : c.push_raw d = .ok c2) :
    c2.len = c.len + 1 := by
  cases c with
  | Raw cap cells =>
    simp only [LazyBatchColumn.push_raw, PanicOr.ok.injEq] at h
    subst h
    simp [LazyBatchColumn.len]
  | Decoded v => exact absurd h (by simp [LazyBatchColumn.push_raw])

theorem pushRowLoop_ok_len {Val : Type} :
    ∀ (cols : List (LazyBatchColumn Val)) (ds : List (List Nat))
      (cols2 : List (LazyBatchColumn Val)),
      BatchRows.pushRowLoop cols ds = .ok cols2 →
      ∀ c2 ∈ cols2, ∃ c ∈ cols, c2.len = c.len + 1 := by
  intro cols
  induction cols with
  | nil =>
    intro ds cols2 h c2 hc2
    cases ds with
    | nil =>
      simp only [BatchRows.pushRowLoop, PanicOr.ok.injEq] at h
      subst h
      exact absurd hc2 (by simp)
    | cons d ds => exact absurd h (by simp [BatchRows.pushRowLoop])
  | cons c cs ih =>
    intro ds cols2 h c2 hc2
    cases ds with
    | nil => exact absurd h (by simp [BatchRows.pushRowLoop])
    | cons d ds =>
      simp only [BatchRows.pushRowLoop] at h
      by_cases hraw : c.is_raw
      · rw [if_pos hraw] at h
        cases hp : c.push_raw d with
        | fatal m => rw [hp] at h; exact absurd h (by simp)
        | ok ca =>
          rw [hp] at h
          simp only at h
          cases hrec : BatchRows.pushRowLoop cs ds with
          | fatal m => rw [hrec] at h; exact absurd h (by simp)
          | ok csa =>
            rw [hrec] at h
            simp only [PanicOr.ok.injEq] at h
            subst h
            rcases List.mem_cons.mp hc2 with heq | hmem
            · subst heq
              exact ⟨c, List.mem_cons_self c cs, push_raw_ok_len c d c2 hp⟩
            · obtain ⟨c0, hc0, hlen⟩ := ih ds csa hrec c2 hmem
              exact ⟨c0, List.mem_cons_of_mem c hc0, hlen⟩
      · rw [if_neg hraw] at h
        exact absurd h (by simp)

theorem lazy_clone_eq {Val : Type} (c : LazyBatchColumn Val) : c.clone = c := by
  cases c <;> rfl

theorem batch_clone_eq {Val E : Type} (b : BatchRows Val E) : b.clone = b := by
  obtain ⟨cols, err⟩ := b
  simp only [BatchRows.clone]
  congr 1
  induction cols with
  | nil => rfl
  | cons c cs ih => simp [lazy_clone_eq, ih]

theorem push_raw_row_ok_spec {Val E : Type} (b : BatchRows Val E)
    (row : List (List Nat)) (b2 : BatchRows Val E)
    (h : b.push_raw_row row = .ok b2) :
    ∃ cols, BatchRows.pushRowLoop b.columns row = .ok cols ∧
      b2 = { b with columns := cols } := by
  unfold BatchRows.push_raw_row at h
  by_cases ha : b.columns_len = row.length
  · rw [if_pos ha] at h
    cases hl : BatchRows.pushRowLoop b.columns row with
    | fatal m => rw [hl] at h; exact absurd h (by simp)
    | ok cols =>
      rw [hl] at h
      simp only [PanicOr.ok.injEq] at h
      exact ⟨cols, rfl, h.symm⟩
  · rw [if_neg ha] at h
    exact absurd h (by simp)

theorem ensure_ok_spec {Val E : Type} (env : DecodeEnv Val) (b : BatchRows Val E)
    (i : Nat) (tz : Tz) (ci : ColumnInfo) (b2 : BatchRows Val E)
    (r : Except Error (VectorValue Val))
    (h : b.ensure_column_decoded env i tz ci = .ok (b2, r)) :
    ∃ col, b.columns[i]? = some col ∧
      b2 = { b with columns := b.columns.set i ((col.decode env tz ci).1) } := by
  unfold BatchRows.ensure_column_decoded at h
  cases hco : b.columns[i]? with
  | none => rw [hco] at h; exact absurd h (by simp)
  | some col =>
    rw [hco] at h
    simp only at h
    by_cases hlen : col.len = b.rows_len
    · rw [if_pos hlen] at h
      refine ⟨col, rfl, ?_⟩
      cases hd : col.decode env tz ci with
      | mk col2 res =>
        rw [hd] at h
        cases res with
        | error e =>
          simp only [PanicOr.ok.injEq, Prod.mk.injEq] at h
          rw [← h.1]
        | ok u =>
          cases u
          simp only at h
          cases hg : col2.get_decoded with
          | fatal m => rw [hg] at h; exact absurd h (by simp)
          | ok v =>
            rw [hg] at h
            simp only [PanicOr.ok.injEq, Prod.mk.injEq] at h
            rw [← h.1]
    · rw [if_neg hlen] at h
      exact absurd h (by simp)

theorem retain_ok_spec {Val E : Type} (p : Nat → Bool) (b : BatchRows Val E)
    (b2 : BatchRows Val E) (h : b.retain_by_index p = .ok b2) :
    (b.rows_len = 0 ∧ b2 = b) ∨
    (b.rows_len ≠ 0 ∧ ∃ cols,
      BatchRows.retainColsLoop p b.rows_len none b.columns = .ok cols ∧
      b2 = { b with columns := cols }) := by
  unfold BatchRows.retain_by_index at h
  by_cases h0 : b.rows_len = 0
  · rw [if_pos h0] at h
    simp only [PanicOr.ok.injEq] at h
    exact Or.inl ⟨h0, h.symm⟩
  · rw [if_neg h0] at h
    cases hl : BatchRows.retainColsLoop p b.rows_len none b.columns with
    | fatal m => rw [hl] at h; exact absurd h (by simp)
    | ok cols =>
      rw [hl] at h
      simp only [PanicOr.ok.injEq] at h
      exact Or.inr ⟨h0, cols, rfl, h.symm⟩

theorem retainColsLoop_ok {Val : Type} (p : Nat → Bool) (n : Nat) :
    ∀ (cols : List (LazyBatchColumn Val)), (∀ c ∈ cols, c.len = n) →
    ∀ nr : Option Nat, (nr = none ∨ nr = some (((List.range n).filter p).length)) →
      BatchRows.retainColsLoop p n nr cols
        = .ok (cols.map (LazyBatchColumn.retain_by_index p)) := by
  intro cols
  induction cols with
  | nil => intro _ nr _; cases nr <;> rfl
  | cons c cs ih =>
    intro hall nr hnr
    have hc : c.len = n := hall c (List.mem_cons_self c cs)
    have hlen2 : (LazyBatchColumn.retain_by_index p c).len
        = ((List.range n).filter p).length := by
      rw [lazyRetain_len, hc]
    have ihh := ih (fun a ha => hall a (List.mem_cons_of_mem c ha))
      (some ((LazyBatchColumn.retain_by_index p c).len)) (Or.inr (by rw [hlen2]))
    rw [hlen2] at ihh
    rcases hnr with hnr | hnr <;> subst hnr <;>
      simp [BatchRows.retainColsLoop, hc, hlen2, ihh]

theorem map_retain_eq_self {Val : Type} (p : Nat → Bool)
    (cols : List (LazyBatchColumn Val)) (h : ∀ c ∈ cols, c.len = 0) :
    cols.map (LazyBatchColumn.retain_by_index p) = cols := by
  induction cols with
  | nil => rfl
  | cons c cs ih =>
    simp [lazyRetain_of_len_zero p c (h c (List.mem_cons_self c cs)),
      ih (fun a ha => h a (List.mem_cons_of_mem c ha))]

/-! ## Claim theorems -/

/-- C1: for a `Raw` column under a schema whose type tag converts to an
evaluation type, `decode` resolves each empty cell as follows: a declared
default value is fed to the decode primitive regardless of the nullability
flag; otherwise, without the NOT NULL flag, the NULL sentinel is fed
(recording a NULL for the row); otherwise decode fails with the error naming
the column's id.  The last two conjuncts tie the per-cell resolution into
`decode`: with a convertible type tag, `decode` runs the cell loop, and the
loop feeds each resolved byte string to the decode primitive in row
order. -/
theorem c1_empty_cell_resolution (Val : Type) (env : DecodeEnv Val) (tz : Tz)
    (ci : ColumnInfo) :
    (∀ d, ci.default_val = some d → resolveCell ci [] = .ok d)
    ∧ (ci.default_val = none → ci.flag_not_null = false →
        resolveCell ci [] = .ok DATUM_DATA_NULL)
    ∧ (ci.default_val = none → ci.flag_not_null = true →
        resolveCell ci [] = .error (Error.other (notNullMsg ci.column_id)))
    ∧ (∀ (et : EvalType) (cap : Nat) (cells : List (List Nat)),
        env.tryFromTp ci.tp = .ok et →
        (LazyBatchColumn.Raw cap cells).decode env tz ci =
          match decodeCells env tz ci cells (VectorValue.withCapacity cap et) with
          | .error e => (.Raw cap cells, .error e)
          | .ok dc => (.Decoded dc, .ok ()))
    ∧ (∀ (c : List Nat) (cells : List (List Nat)) (acc : VectorValue Val),
        decodeCells env tz ci (c :: cells) acc =
          match resolveCell ci c with
          | .error e => .error e
          | .ok bytes =>
            match acc.push_datum env bytes tz ci with
            | .error e => .error e
            | .ok acc2 => decodeCells env tz ci cells acc2) := by
  refine ⟨?_, ?_, ?_, ?_, ?_⟩
  · intro d hd
    simp [resolveCell, ColumnInfo.has_default_val, ColumnInfo.get_default_val, hd]
  · intro h1 h2
    simp [resolveCell, ColumnInfo.has_default_val, h1, h2]
  · intro h1 h2
    simp [resolveCell, ColumnInfo.has_default_val, h1, h2]
  · intro et cap cells ht
    simp [LazyBatchColumn.decode, ht]
  · intro c cells acc
    rfl

/-- C3: whenever `decode` returns an error, the column is unchanged and
still in the `Raw` state (the variant replacement at lazy_column.rs:175 only
happens after every cell decoded). -/
theorem c3_decode_error_unchanged (Val : Type) (env : DecodeEnv Val)
    (col : LazyBatchColumn Val) (tz : Tz) (ci : ColumnInfo) (e : Error)
    (h : (col.decode env tz ci).2 = .error e) :
    (col.decode env tz ci).1 = col ∧ col.is_raw = true := by
  cases col with
  | Decoded v => exact absurd h (by simp [LazyBatchColumn.decode])
  | Raw cap cells =>
    refine ⟨?_, rfl⟩
    simp only [LazyBatchColumn.decode] at h ⊢
    cases ht : env.tryFromTp ci.tp with
    | error e2 => rfl
    | ok et =>
      cases hd : decodeCells env tz ci cells (VectorValue.withCapacity cap et) with
      | error e2 => simp [hd]
      | ok dc =>
        rw [ht] at h
        simp only at h
        rw [hd] at h
        exact absurd h (by simp)

/-- C5: `decode` on an already-`Decoded` column returns success at once with
no mutation, and `decode` is idempotent: running it again on the resulting
column reproduces the same column and the same result. -/
theorem c5_decode_idempotent (Val : Type) (env : DecodeEnv Val) (tz : Tz)
    (ci : ColumnInfo) :
    (∀ v : VectorValue Val,
      (LazyBatchColumn.Decoded v).decode env tz ci = (.Decoded v, .ok ()))
    ∧ ∀ col : LazyBatchColumn Val,
        ((col.decode env tz ci).1).decode env tz ci = col.decode env tz ci := by
  refine ⟨fun v => rfl, ?_⟩
  intro col
  cases col with
  | Decoded v => rfl
  | Raw cap cells =>
    simp only [LazyBatchColumn.decode]
    cases ht : env.tryFromTp ci.tp with
    | error e => simp [LazyBatchColumn.decode, ht]
    | ok et =>
      cases hd : decodeCells env tz ci cells (VectorValue.withCapacity cap et) with
      | error e => simp [LazyBatchColumn.decode, ht, hd]
      | ok dc => simp [LazyBatchColumn.decode, ht, hd]

/-- C7: `push_raw` on a `Raw` column appends exactly the given cell (length
grows by one), and `push_raw` on a `Decoded` column is the fatal
(panic-class) outcome — the model's only alternative to `ok`, so it is
neither a recoverable error value nor a silent no-op. -/
theorem c7_push_raw_contract (Val : Type) (cap : Nat)
    (cells : List (List Nat)) (d : List Nat) (v : VectorValue Val) :
    (LazyBatchColumn.Raw cap cells : LazyBatchColumn Val).push_raw d
        = .ok (.Raw (max cap (cells.length + 1)) (cells ++ [d]))
    ∧ (LazyBatchColumn.Raw (max cap (cells.length + 1))
        (cells ++ [d]) : LazyBatchColumn Val).len
      = (LazyBatchColumn.Raw cap cells : LazyBatchColumn Val).len + 1
    ∧ (LazyBatchColumn.Decoded v).push_raw d
        = .fatal "LazyBatchColumn is already decoded" :=
  ⟨rfl, by simp [LazyBatchColumn.len], rfl⟩

/-- C8: `rows_len` returns the first column's length when a column exists
and 0 otherwise, and `rows_capacity` returns the first column's capacity
when a column exists and 0 otherwise. -/
theorem c8_rows_len_capacity (Val E : Type) (b : BatchRows Val E) :
    b.rows_len = ((b.columns.head?).map LazyBatchColumn.len).getD 0
    ∧ b.rows_capacity = ((b.columns.head?).map LazyBatchColumn.capacity).getD 0 := by
  obtain ⟨cols, err⟩ := b
  cases cols <;> simp [BatchRows.rows_len, BatchRows.rows_capacity]

/-- C9: when the schema's type tag has no evaluation type, `decode` fails
with the generic conversion error (`Error::Other` of the conversion's own
message, not the NOT-NULL-violation message), leaves the column unchanged,
and examines no cell: the result is the same for every cell sequence and for
every schema sharing the type tag (nullability, default value and column id
never enter). -/
theorem c9_eval_type_failure (Val : Type) (env : DecodeEnv Val) (tz : Tz)
    (ci ci2 : ColumnInfo) (e : String) (cap : Nat) (cells : List (List Nat))
    (h : env.tryFromTp ci.tp = .error e) (h2 : ci2.tp = ci.tp) :
    (LazyBatchColumn.Raw cap cells).decode env tz ci
        = (.Raw cap cells, .error (Error.other e))
    ∧ (LazyBatchColumn.Raw cap cells).decode env tz ci2
        = (.Raw cap cells, .error (Error.other e)) := by
  constructor <;> simp [LazyBatchColumn.decode, h, h2]

/-- C10: a `Raw` column with zero rows decodes successfully to an empty
`Decoded` column whenever the type tag converts — for every schema,
including one with the NOT NULL flag and no default value, because the
NOT-NULL check runs per cell and there are no cells. -/
theorem c10_empty_column_decode (Val : Type) (env : DecodeEnv Val) (tz : Tz)
    (ci : ColumnInfo) (et : EvalType) (cap : Nat)
    (h : env.tryFromTp ci.tp = .ok et) :
    (LazyBatchColumn.Raw cap []).decode env tz ci
        = (.Decoded (VectorValue.withCapacity cap et), .ok ())
    ∧ (LazyBatchColumn.Decoded (VectorValue.withCapacity cap et : VectorValue Val)).len
        = 0 := by
  refine ⟨?_, rfl⟩
  simp [LazyBatchColumn.decode, h, decodeCells]

/-- C2: for a batch whose columns all have length `n` and a predicate that
is a pure function of the row index, `retain_by_index` succeeds (every
defensive length assertion passes) and retains every column by the same
predicate; every resulting column has length `count i < n with p i`; each
column keeps exactly the rows whose pre-removal index satisfies the
predicate, in their original relative order (so the same rows survive in
every column); and within each column the predicate is invoked exactly once
per current row, in increasing index order, on the pre-removal indices
`0, ..., n-1`. -/
theorem c2_filter_consistency (Val E : Type) (b : BatchRows Val E) (n : Nat)
    (p : Nat → Bool) (hall : ∀ c ∈ b.columns, c.len = n) :
    b.retain_by_index p
        = .ok { b with columns := b.columns.map (LazyBatchColumn.retain_by_index p) }
    ∧ (∀ c2 ∈ b.columns.map (LazyBatchColumn.retain_by_index p),
        c2.len = ((List.range n).filter p).length)
    ∧ (∀ c ∈ b.columns,
        LazyBatchColumn.retain_by_index p c = LazyBatchColumn.sieveCol p c)
    ∧ (∀ c ∈ b.columns, LazyBatchColumn.retainCalls p c = List.range n) := by
  have hmaplen : ∀ c2 ∈ b.columns.map (LazyBatchColumn.retain_by_index p),
      c2.len = ((List.range n).filter p).length := by
    intro c2 hc2
    obtain ⟨c, hc, rfl⟩ := List.mem_map.mp hc2
    rw [lazyRetain_len, hall c hc]
  refine ⟨?_, hmaplen, fun c _ => lazyRetain_eq_sieve p c,
    fun c hc => by rw [retainCalls_range, hall c hc]⟩
  obtain ⟨cols, err⟩ := b
  unfold BatchRows.retain_by_index
  by_cases h0 : BatchRows.rows_len ⟨cols, err⟩ = 0
  · rw [if_pos h0]
    have hzero : ∀ c ∈ cols, c.len = 0 := by
      intro c hc
      cases cols with
      | nil => exact absurd hc (by simp)
      | cons c0 cs =>
        have hc0 : c0.len = n := hall c0 (List.mem_cons_self c0 cs)
        have hrl : BatchRows.rows_len ⟨c0 :: cs, err⟩ = c0.len := rfl
        have hn0 : n = 0 := by rw [← hc0, ← hrl, h0]
        rw [hall c hc, hn0]
    rw [map_retain_eq_self p cols hzero]
  · rw [if_neg h0]
    cases cols with
    | nil => exact absurd rfl h0
    | cons c0 cs =>
      have hrl : BatchRows.rows_len ⟨c0 :: cs, err⟩ = c0.len := rfl
      have hn : BatchRows.rows_len ⟨c0 :: cs, err⟩ = n := by
        rw [hrl, hall c0 (List.mem_cons_self c0 cs)]
      rw [hn, retainColsLoop_ok p n (c0 :: cs) hall none (Or.inl rfl)]

/-- C4: pushing a sequence of non-empty cells into a fresh `Raw` column and
decoding it under a schema whose type tag converts succeeds whenever the
decode primitive accepts each cell, the decoded column holds exactly one
value per pushed cell (`len` equals the number of pushed cells), and the
values are the cell-by-cell results of the decode primitive in the original
push order. -/
theorem c4_round_trip (Val : Type) (env : DecodeEnv Val) (tz : Tz)
    (ci : ColumnInfo) (et : EvalType) (cap : Nat) (cells : List (List Nat))
    (vs : List Val)
    (hne : ∀ c ∈ cells, c ≠ [])
    (ht : env.tryFromTp ci.tp = .ok et)
    (hd : decodeAll env tz ci cells = .ok vs) :
    ∃ cap2,
      LazyBatchColumn.pushAll
          (LazyBatchColumn.raw_with_capacity cap : LazyBatchColumn Val) cells
        = .ok (.Raw cap2 cells)
      ∧ (LazyBatchColumn.Raw cap2 cells).decode env tz ci
          = (.Decoded ⟨et, cap2, vs⟩, .ok ())
      ∧ vs.length = cells.length := by
  obtain ⟨cap2, hp⟩ := pushAll_raw cells cap []
  have hcells := decodeCells_eq_decodeAll env tz ci cells hne
    (VectorValue.withCapacity cap2 et)
  rw [hd] at hcells
  simp only [VectorValue.withCapacity, List.nil_append] at hcells
  have hvs : vs.length = cells.length := by
    have := (decodeCells_ok env tz ci cells _ _ hcells).2.2
    simpa using this
  refine ⟨cap2, by simpa using hp, ?_, hvs⟩
  simp [LazyBatchColumn.decode, ht, hcells, VectorValue.withCapacity]

/-- C6: every batch reachable from `BatchRows::raw` by non-panicking
`push_raw_row`, `ensure_column_decoded` (whether the decode succeeded or
failed), `retain_by_index` with a pure index predicate, and `clone`
satisfies the invariant that all of its columns have the same length. -/
theorem c6_equal_lengths {Val E : Type} (env : DecodeEnv Val)
    (b : BatchRows Val E) (h : Reachable env b) :
    ∀ c1 ∈ b.columns, ∀ c2 ∈ b.columns, c1.len = c2.len := by
  induction h with
  | init cc cap =>
    intro c1 h1 c2 h2
    simp only [BatchRows.raw] at h1 h2
    rw [List.eq_of_mem_replicate h1, List.eq_of_mem_replicate h2]
  | push row hR heq ih =>
    rename_i b b2
    obtain ⟨cols, hloop, rfl⟩ := push_raw_row_ok_spec b row _ heq
    intro c1 h1 c2 h2
    obtain ⟨d1, hd1, hl1⟩ := pushRowLoop_ok_len b.columns row cols hloop c1 h1
    obtain ⟨d2, hd2, hl2⟩ := pushRowLoop_ok_len b.columns row cols hloop c2 h2
    rw [hl1, hl2, ih d1 hd1 d2 hd2]
  | ensure i tz ci r hR heq ih =>
    rename_i b b2
    obtain ⟨col, hco, rfl⟩ := ensure_ok_spec env b i tz ci _ r heq
    have hcol := List.getElem?_mem hco
    have key : ∀ x ∈ b.columns.set i ((col.decode env tz ci).1),
        ∃ y ∈ b.columns, x.len = y.len := by
      intro x hx
      rcases List.mem_or_eq_of_mem_set hx with hx2 | rfl
      · exact ⟨x, hx2, rfl⟩
      · exact ⟨col, hcol, decode_fst_len env col tz ci⟩
    intro c1 h1 c2 h2
    obtain ⟨y1, hy1, he1⟩ := key c1 h1
    obtain ⟨y2, hy2, he2⟩ := key c2 h2
    rw [he1, he2, ih y1 hy1 y2 hy2]
  | retain p hR heq ih =>
    rename_i b b2
    rcases retain_ok_spec p b b2 heq with ⟨h0, rfl⟩ | ⟨h0, cols, hloop, rfl⟩
    · exact ih
    · have hne2 : b.columns ≠ [] := by
        intro hnil
        exact h0 (by simp [BatchRows.rows_len, hnil])
      obtain ⟨c0, cs, hcols⟩ := List.exists_cons_of_ne_nil hne2
      have hmem0 : c0 ∈ b.columns := by rw [hcols]; exact List.mem_cons_self c0 cs
      have hrows : b.rows_len = c0.len := by simp [BatchRows.rows_len, hcols]
      have hall : ∀ c ∈ b.columns, c.len = b.rows_len := by
        intro c hc
        rw [hrows]
        exact ih c hc c0 hmem0
      rw [retainColsLoop_ok p b.rows_len b.columns hall none (Or.inl rfl)] at hloop
      simp only [PanicOr.ok.injEq] at hloop
      subst hloop
      intro c1 h1 c2 h2
      obtain ⟨d1, hd1, rfl⟩ := List.mem_map.mp h1
      obtain ⟨d2, hd2, rfl⟩ := List.mem_map.mp h2
      rw [lazyRetain_len, lazyRetain_len, hall d1 hd1, hall d2 hd2]
  | cloned hR ih =>
    rw [batch_clone_eq]
    exact ih

/-! ## Witnesses -/

/-- Witness for C1 on concrete schemas: default used regardless of the NOT
NULL flag, NULL sentinel without the flag, NOT-NULL error naming id 5. -/
theorem c1_empty_cell_resolution_witness :
    resolveCell ⟨1, true, some [7, 7], 5⟩ [] = .ok [7, 7]
    ∧ resolveCell ⟨1, false, none, 5⟩ [] = .ok DATUM_DATA_NULL
    ∧ resolveCell ⟨1, true, none, 5⟩ [] = .error (Error.other (notNullMsg 5)) :=
  ⟨(c1_empty_cell_resolution Nat sampleEnv 0 ⟨1, true, some [7, 7], 5⟩).1 [7, 7] rfl,
   (c1_empty_cell_resolution Nat sampleEnv 0 ⟨1, false, none, 5⟩).2.1 rfl rfl,
   (c1_empty_cell_resolution Nat sampleEnv 0 ⟨1, true, none, 5⟩).2.2.1 rfl rfl⟩

/-- Witness for C2 on a concrete two-column batch of length 2. -/
theorem c2_filter_consistency_witness :
    sampleBatch.retain_by_index samplePred
      = .ok { sampleBatch with
          columns := sampleBatch.columns.map
            (LazyBatchColumn.retain_by_index samplePred) } :=
  (c2_filter_consistency Nat Unit sampleBatch 2 samplePred (by decide)).1

/-- Witness for C3: a failing decode (inconvertible type tag) leaves the
concrete column in `Raw` state with its cell intact. -/
theorem c3_decode_error_unchanged_witness :
    ((LazyBatchColumn.Raw 0 [[1]]).decode sampleEnv 0
        ⟨2, false, none, 7⟩).1 = .Raw 0 [[1]]
    ∧ (LazyBatchColumn.Raw 0 [[1]] : LazyBatchColumn Nat).is_raw = true :=
  c3_decode_error_unchanged Nat sampleEnv (.Raw 0 [[1]]) 0 ⟨2, false, none, 7⟩
    (Error.other "unsupported type") rfl

/-- Witness for C4: two non-empty cells round-trip through push and decode
under the sample environment. -/
theorem c4_round_trip_witness :
    ∃ cap2,
      LazyBatchColumn.pushAll
          (LazyBatchColumn.raw_with_capacity 5 : LazyBatchColumn Nat) [[1], [2, 3]]
        = .ok (.Raw cap2 [[1], [2, 3]])
      ∧ (LazyBatchColumn.Raw cap2 [[1], [2, 3]]).decode sampleEnv 0
            ⟨1, false, none, 3⟩
          = (.Decoded ⟨1, cap2, [1, 2]⟩, .ok ())
      ∧ ([1, 2] : List Nat).length = ([[1], [2, 3]] : List (List Nat)).length :=
  c4_round_trip Nat sampleEnv 0 ⟨1, false, none, 3⟩ 1 5 [[1], [2, 3]] [1, 2]
    (by decide) rfl rfl

/-- Witness for C6 on a concrete reachable batch (one pushed row): both
columns have the same length. -/
theorem c6_equal_lengths_witness :
    (LazyBatchColumn.Raw 3 [[1]] : LazyBatchColumn Nat).len
      = (LazyBatchColumn.Raw 3 [[]] : LazyBatchColumn Nat).len :=
  c6_equal_lengths sampleEnv samplePushed
    (Reachable.push [[1], []] (Reachable.init 2 3) (by decide))
    (.Raw 3 [[1]]) (by decide) (.Raw 3 [[]]) (by decide)

/-- Witness for C9: the conversion failure is the same for two schemas that
share the type tag but differ in nullability, default value and column
id. -/
theorem c9_eval_type_failure_witness :
    (LazyBatchColumn.Raw 1 [[5], []]).decode sampleEnv 0
        ⟨2, false, none, 7⟩
      = (.Raw 1 [[5], []], .error (Error.other "unsupported type"))
    ∧ (LazyBatchColumn.Raw 1 [[5], []]).decode sampleEnv 0
        ⟨2, true, some [1], 9⟩
      = (.Raw 1 [[5], []], .error (Error.other "unsupported type")) :=
  c9_eval_type_failure Nat sampleEnv 0 ⟨2, false, none, 7⟩ ⟨2, true, some [1], 9⟩
    "unsupported type" 1 [[5], []] rfl rfl

/-- Witness for C10: the empty column decodes successfully under a NOT NULL
schema with no default value. -/
theorem c10_empty_column_decode_witness :
    (LazyBatchColumn.Raw 4 []).decode sampleEnv 0 ⟨1, true, none, 7⟩
        = (.Decoded (VectorValue.withCapacity 4 1), .ok ())
    ∧ (LazyBatchColumn.Decoded (VectorValue.withCapacity 4 1 : VectorValue Nat)).len
        = 0 :=
  c10_empty_column_decode Nat sampleEnv 0 ⟨1, true, none, 7⟩ 1 4 rfl
